import Mathlib

/-!
Shallow embedding of the parameter-classification and path-object synthesis
core of `lib/utils.py` (vmware-openapi-generator).  Strings are modelled as
`List Char`; Python's fallible operations (`dict[key]`, `int(...)`) are
modelled with `Except PyErr`.
-/

/-- Python exception kinds relevant to the embedded code. -/
inductive PyErr where
  | keyError
  | valueError
deriving DecidableEq

deriving instance DecidableEq for Except

/-- The character `{` (written via its code point to keep literals plain). -/
def lbrace : Char := Char.ofNat 123

/-- The character `}`. -/
def rbrace : Char := Char.ofNat 125

/-- The newline character, which Python's regex `.` does not match. -/
def nlChar : Char := Char.ofNat 10

/-- Python `str.lower()` restricted to ASCII case folding. -/
def pyLower (s : List Char) : List Char := s.map Char.toLower

/-- Python `haystack.find(needle)` as an option: index of the first
occurrence of `needle` as a contiguous substring, `none` when absent.
Python's `-1` result corresponds to `none`. -/
def findAux (hay needle : List Char) : Option Nat :=
  if needle.isPrefixOf hay then some 0
  else
    match hay with
    | [] => none
    | _ :: t => (findAux t needle).map (· + 1)

/-- Fuel-driven worker for Python `str.replace`: replaces every
non-overlapping occurrence of `old` left to right; with `old = []` it
inserts `new` before every character and at the end, as Python does. -/
def strReplaceF : Nat → List Char → List Char → List Char → List Char
  | 0, s, _, _ => s
  | _ + 1, [], [], new => new
  | fuel + 1, c :: rest, [], new => new ++ c :: strReplaceF fuel rest [] new
  | _ + 1, [], _ :: _, _ => []
  | fuel + 1, c :: rest, o :: os, new =>
    if (o :: os).isPrefixOf (c :: rest) then
      new ++ strReplaceF fuel ((c :: rest).drop (o :: os).length) (o :: os) new
    else c :: strReplaceF fuel rest (o :: os) new

/-- Python `s.replace(old, new)`. -/
def strReplace (s old new : List Char) : List Char :=
  strReplaceF (s.length + 1) s old new

theorem strReplaceF_congr (f1 : Nat) : ∀ (f2 : Nat) (s old new : List Char),
    s.length < f1 → s.length < f2 →
    strReplaceF f1 s old new = strReplaceF f2 s old new := by
  induction f1 with
  | zero => intro f2 s old new h1 _; omega
  | succ f1 ih =>
    intro f2 s old new h1 h2
    match f2 with
    | 0 => omega
    | f2 + 1 =>
      match old, s with
      | [], [] => rfl
      | [], c :: rest =>
        simp only [strReplaceF]
        rw [ih f2 rest [] new (by simp at h1 ⊢; omega) (by simp at h2 ⊢; omega)]
      | _ :: _, [] => rfl
      | o :: os, c :: rest =>
        simp only [strReplaceF]
        by_cases hp : (o :: os).isPrefixOf (c :: rest) = true
        · rw [if_pos hp, if_pos hp]
          rw [ih f2 ((c :: rest).drop (o :: os).length) (o :: os) new
            (by simp at h1 ⊢; omega) (by simp at h2 ⊢; omega)]
        · rw [if_neg hp, if_neg hp]
          rw [ih f2 rest (o :: os) new (by simp at h1 ⊢; omega) (by simp at h2 ⊢; omega)]

theorem strReplace_nil (old new : List Char) (h : old ≠ []) :
    strReplace [] old new = [] := by
  match old, h with
  | o :: os, _ => rfl

theorem strReplace_pos (s old new : List Char) (ho : old ≠ [])
    (hp : old.isPrefixOf s = true) :
    strReplace s old new = new ++ strReplace (s.drop old.length) old new := by
  match old, ho with
  | o :: os, _ =>
    match s with
    | [] => simp [List.isPrefixOf] at hp
    | c :: rest =>
      show strReplaceF ((c :: rest).length + 1) (c :: rest) (o :: os) new = _
      simp only [strReplaceF, if_pos hp]
      congr 1
      apply strReplaceF_congr <;> (simp; try omega)

theorem strReplace_neg (c : Char) (rest old new : List Char) (ho : old ≠ [])
    (hp : ¬ old.isPrefixOf (c :: rest) = true) :
    strReplace (c :: rest) old new = c :: strReplace rest old new := by
  match old, ho with
  | o :: os, _ =>
    show strReplaceF ((c :: rest).length + 1) (c :: rest) (o :: os) new = _
    simp only [strReplaceF, if_neg hp]
    rfl

/-- Python `'sep'.join(pieces)`. -/
def pyJoin (sep : List Char) (pieces : List (List Char)) : List Char :=
  List.intercalate sep pieces

/-- Python `s.split(sep)` for a single-character separator: splits at every
occurrence, keeping empty pieces, and yields `[""]` on the empty string. -/
def pySplit (sep : Char) : List Char → List (List Char)
  | [] => [[]]
  | c :: rest =>
    let r := pySplit sep rest
    if c == sep then [] :: r
    else
      match r with
      | h :: t => (c :: h) :: t
      | [] => [[c]]

/-- From `lib/utils.py`: `tags_from_service_name` joins the dot-separated
segments of the service name from index 3 on with `/`. -/
def tags_from_service_name (service_name : List Char) : List (List Char) :=
  [pyJoin ['/'] ((pySplit '.' service_name).drop 3)]

/-- From `lib/utils.py`: `add_query_param` appends `param` after `?` or `&`,
returning the url unchanged when `param` already occurs after the `?`. -/
def add_query_param (url param : List Char) : List Char :=
  match findAux url ['?'] with
  | none => url ++ '?' :: param
  | some query_index =>
    if query_index = url.length then url ++ param
    else if (findAux (url.drop (query_index + 1)) param).isSome then url
    else url ++ '&' :: param

/-- From `lib/utils.py`: `metamodel_to_swagger_type_converter` lower-cases
its input and translates ten fixed metamodel types; everything else falls
through as the lower-cased input with no format. -/
def metamodel_to_swagger_type_converter (input_type : List Char) :
    List Char × Option (List Char) :=
  let t := pyLower input_type
  if t = "date_time".toList then ("string".toList, some "date-time".toList)
  else if t = "secret".toList then ("string".toList, some "password".toList)
  else if t = "any_error".toList then ("string".toList, none)
  else if t = "opaque".toList then ("object".toList, none)
  else if t = "dynamic_structure".toList then ("object".toList, none)
  else if t = "uri".toList then ("string".toList, some "uri".toList)
  else if t = "id".toList then ("string".toList, none)
  else if t = "long".toList then ("integer".toList, some "int64".toList)
  else if t = "double".toList then ("number".toList, some "double".toList)
  else if t = "binary".toList then ("string".toList, some "binary".toList)
  else (t, none)

/-- The `typeset` literal of `is_type_builtin` in `lib/utils.py`. -/
def builtinTypeset : List (List Char) :=
  ["binary".toList, "boolean".toList, "datetime".toList, "double".toList,
   "dynamicstructure".toList, "exception".toList, "id".toList, "long".toList,
   "opaque".toList, "secret".toList, "string".toList, "uri".toList]

/-- From `lib/utils.py`: `is_type_builtin` lower-cases its argument and
tests membership in the fixed `typeset`. -/
def is_type_builtin (type_ : List Char) : Bool :=
  let t := pyLower type_
  if t ∈ builtinTypeset then true else false

/-- Worker for the lazy group of the regex: after an opening brace and one
consumed character, keep consuming non-newline characters until the first
closing brace.  Returns the group and the remainder after the match. -/
def grabAfter (acc : List Char) : List Char → Option (List Char × List Char)
  | [] => none
  | c :: rest =>
    if c == rbrace then some (acc.reverse, rest)
    else if c == nlChar then none
    else grabAfter (c :: acc) rest

/-- Attempt to complete a regex match of `(.+?)}` right after an opening
brace: the group needs at least one character, `.` does not match newline,
and the group ends at the first closing brace after it. -/
def grabGroup (s : List Char) : Option (List Char × List Char) :=
  match s with
  | [] => none
  | c :: rest => if c == nlChar then none else grabAfter [c] rest

theorem grabAfter_length (acc : List Char) : ∀ (s g r : List Char),
    grabAfter acc s = some (g, r) → r.length < s.length := by
  intro s
  induction s generalizing acc with
  | nil => intro g r h; simp [grabAfter] at h
  | cons c rest ih =>
    intro g r h
    simp only [grabAfter] at h
    by_cases h1 : (c == rbrace) = true
    · rw [if_pos h1] at h
      cases h
      simp
    · rw [if_neg h1] at h
      by_cases h2 : (c == nlChar) = true
      · rw [if_pos h2] at h; cases h
      · rw [if_neg h2] at h
        have := ih (c :: acc) g r h
        simp; omega

theorem grabGroup_length (s g r : List Char) (h : grabGroup s = some (g, r)) :
    r.length < s.length := by
  match s with
  | [] => simp [grabGroup] at h
  | c :: rest =>
    simp only [grabGroup] at h
    by_cases h2 : (c == nlChar) = true
    · rw [if_pos h2] at h; cases h
    · rw [if_neg h2] at h
      have := grabAfter_length [c] rest g r h
      simp; omega

/-- Fuel-driven worker modelling `re.finditer` of the pattern `{(.+?)}`
over a string: the list of matched groups, left to right, non-overlapping. -/
def plcScanF : Nat → List Char → List (List Char)
  | 0, _ => []
  | _ + 1, [] => []
  | fuel + 1, c :: rest =>
    if c == lbrace then
      match grabGroup rest with
      | some (g, rest2) => g :: plcScanF fuel rest2
      | none => plcScanF fuel rest
    else plcScanF fuel rest

/-- The groups of all matches of the placeholder regex `{(.+?)}` in `s`. -/
def plcScan (s : List Char) : List (List Char) :=
  plcScanF (s.length + 1) s

theorem plcScanF_congr (f1 : Nat) : ∀ (f2 : Nat) (s : List Char),
    s.length < f1 → s.length < f2 → plcScanF f1 s = plcScanF f2 s := by
  induction f1 with
  | zero => intro f2 s h1 _; omega
  | succ f1 ih =>
    intro f2 s h1 h2
    match f2 with
    | 0 => omega
    | f2 + 1 =>
      match s with
      | [] => rfl
      | c :: rest =>
        simp only [plcScanF]
        by_cases hc : (c == lbrace) = true
        · rw [if_pos hc, if_pos hc]
          cases hg : grabGroup rest with
          | none =>
            exact ih f2 rest (by simp at h1; omega) (by simp at h2; omega)
          | some p =>
            obtain ⟨g, rest2⟩ := p
            have hlen := grabGroup_length rest g rest2 hg
            exact congrArg (fun l => g :: l)
              (ih f2 rest2 (by simp at h1; omega) (by simp at h2; omega))
        · rw [if_neg hc, if_neg hc]
          exact ih f2 rest (by simp at h1; omega) (by simp at h2; omega)

theorem plcScan_nil : plcScan [] = [] := rfl

theorem plcScan_cons_other (c : Char) (rest : List Char) (hc : ¬ c = lbrace) :
    plcScan (c :: rest) = plcScan rest := by
  show plcScanF (rest.length + 2) (c :: rest) = _
  simp only [plcScanF]
  rw [if_neg (by simpa using hc)]
  exact plcScanF_congr _ _ rest (by omega) (by omega)

theorem plcScan_cons_brace_some (rest g rest2 : List Char)
    (hg : grabGroup rest = some (g, rest2)) :
    plcScan (lbrace :: rest) = g :: plcScan rest2 := by
  show plcScanF (rest.length + 2) (lbrace :: rest) = _
  simp only [plcScanF]
  rw [if_pos (by simp), hg]
  have hlen := grabGroup_length rest g rest2 hg
  exact congrArg (fun l => g :: l)
    (plcScanF_congr (rest.length + 1) (rest2.length + 1) rest2 (by omega) (by omega))

theorem plcScan_cons_brace_none (rest : List Char) (hg : grabGroup rest = none) :
    plcScan (lbrace :: rest) = plcScan rest := by
  show plcScanF (rest.length + 2) (lbrace :: rest) = _
  simp only [plcScanF]
  rw [if_pos (by simp), hg]
  exact plcScanF_congr _ _ rest (by omega) (by omega)

/-- A nested metadata element exposing a `string_value`, as consumed by
`is_param_path_variable` and `HttpErrorMap`. -/
structure ElemVal where
  string_value : List Char
deriving DecidableEq

/-- A metadata payload carrying named elements (`.elements[...]`). -/
structure MetaVal where
  elements : List (List Char × ElemVal)
deriving DecidableEq

/-- An operation parameter: a name and a metadata mapping from tag names to
payloads, as consumed by the parameter classifier. -/
structure Param where
  name : List Char
  metadata : List (List Char × MetaVal)
deriving DecidableEq

/-- From `lib/utils.py`: `is_param_path_variable` matches a parameter
against a placeholder by name, or by the `value` element of its
`PathVariable` metadata.  Looking up a missing `value` element raises
`KeyError` in Python, modelled as `Except.error`. -/
def is_param_path_variable (param : Param) (path_param_placeholder : List Char) :
    Except PyErr Bool :=
  if param.name = path_param_placeholder then .ok true
  else
    match param.metadata.lookup "PathVariable".toList with
    | none => .ok false
    | some ann =>
      match ann.elements.lookup "value".toList with
      | none => .error .keyError
      | some el => .ok (el.string_value = path_param_placeholder)

/-- The inner `for param in other_params` search of
`extract_path_parameters`: the first parameter matching the placeholder. -/
def findPathParam (plc : List Char) : List Param → Except PyErr (Option Param)
  | [] => .ok none
  | p :: rest =>
    match is_param_path_variable p plc with
    | .error e => .error e
    | .ok true => .ok (some p)
    | .ok false => findPathParam plc rest

/-- The whole-match text `{plc}` of a placeholder group `plc`. -/
def wrapBraces (plc : List Char) : List Char :=
  lbrace :: (plc ++ [rbrace])

/-- The main loop of `extract_path_parameters`, iterating over the
placeholder groups found in the original url.  The state carries the
not-yet-matched parameters and the current (possibly rewritten) url; the
result collects path parameters in match order, the leftover parameters,
the final url, and the placeholders reported as unmatched (the `eprint`
diagnostics), in order. -/
def eppLoop : List (List Char) → List Param → List Char →
    Except PyErr (List Param × List Param × List Char × List (List Char))
  | [], other_params, new_url => .ok ([], other_params, new_url, [])
  | plc :: rest, other_params, new_url =>
    match findPathParam plc other_params with
    | .error e => .error e
    | .ok none =>
      (eppLoop rest other_params new_url).map
        (fun r => (r.1, r.2.1, r.2.2.1, plc :: r.2.2.2))
    | .ok (some p) =>
      let url2 := if p.name = plc then new_url
        else strReplace new_url (wrapBraces plc) (wrapBraces p.name)
      (eppLoop rest (other_params.erase p) url2).map
        (fun r => (p :: r.1, r.2.1, r.2.2.1, r.2.2.2))

/-- From `lib/utils.py`: `extract_path_parameters` splits `params` into the
path parameters matching the url's `{...}` placeholders and the rest, and
rewrites the url where a matched parameter's name differs from the
placeholder. -/
def extract_path_parameters (params : List Param) (url : List Char) :
    Except PyErr (List Param × List Param × List Char × List (List Char)) :=
  eppLoop (plcScan url) params url

/-- An entry of a swagger path object's `parameters` list, as inspected by
`create_req_body_from_params_list`: an optional reference string (the
entry's `$ref` key) plus an opaque payload distinguishing entries. -/
structure SwaggerParam where
  ref : Option (List Char)
  payload : Nat
deriving DecidableEq

/-- A swagger path object as assembled by `build_path`: keys set
conditionally in the Python dict are `Option` fields here, `tags` is
always set. -/
structure PathObj where
  tags : List (List Char)
  method : Option (List Char)
  path : Option (List Char)
  summary : Option (List Char)
  parameters : Option (List SwaggerParam)
  responses : Option (List Char)
  consumes : Option (List Char)
  produces : Option (List Char)
  operationId : Option (List Char)
  requestBody : Option (List Char)
deriving DecidableEq

/-- From `lib/utils.py`: `build_path` builds a path object with `tags`
always set from the service name; every optional argument that is absent
(`None`) leaves its key absent from the object. -/
def build_path (service_name : List Char) (method path documentation :
    Option (List Char)) (parameters : Option (List SwaggerParam))
    (operation_id responses consumes produces : Option (List Char)) : PathObj :=
  { tags := tags_from_service_name service_name
    method := method
    path := path
    summary := documentation
    parameters := parameters
    responses := responses
    consumes := consumes
    produces := produces
    operationId := operation_id
    requestBody := none }

/-- The literal reference head `#/components/requestBodies/` tested by
`create_req_body_from_params_list`. -/
def reqBodyRefHead : List Char := "#/components/requestBodies/".toList

/-- Whether a parameters entry has a `$ref` key starting with
`#/components/requestBodies/`. -/
def isReqBodyRef (e : SwaggerParam) : Bool :=
  match e.ref with
  | some r => reqBodyRefHead.isPrefixOf r
  | none => false

/-- From `lib/utils.py`: `create_req_body_from_params_list` reads
`path_obj['parameters']` unconditionally (a `KeyError` when the key is
absent), and when the list is non-empty hoists the first entry whose
`$ref` starts with `#/components/requestBodies/` into a top-level
`requestBody`, deleting it from the list. -/
def create_req_body_from_params_list (path_obj : PathObj) :
    Except PyErr PathObj :=
  match path_obj.parameters with
  | none => .error .keyError
  | some parameters =>
    if parameters.isEmpty then .ok path_obj
    else
      match parameters.findIdx? isReqBodyRef with
      | none => .ok path_obj
      | some i =>
        .ok { path_obj with
          requestBody := (parameters.getD i ⟨none, 0⟩).ref
          parameters := some (parameters.eraseIdx i) }

/-- A structure of the standard-errors package as scanned by
`HttpErrorMap.__init__`: a metadata mapping whose values may be `None`
(hence `Option MetaVal`). -/
structure StructInfo where
  metadata : List (List Char × Option MetaVal)
deriving DecidableEq

/-- Python `int(s)` on a string: optional surrounding whitespace, an
optional sign, then at least one digit; anything else raises
`ValueError` (modelled by `none`). -/
def parsePyInt (s : List Char) : Option Int :=
  let t1 := s.dropWhile Char.isWhitespace
  let t := (t1.reverse.dropWhile Char.isWhitespace).reverse
  let digits : List Char → Option Int := fun ds =>
    if ds.isEmpty then none
    else if ds.all Char.isDigit then
      some (ds.foldl (fun a c => a * 10 + ((c.toNat : Int) - 48)) 0)
    else none
  match t with
  | '+' :: ds => digits ds
  | '-' :: ds => (digits ds).map (fun n => -n)
  | ds => digits ds

/-- The body of the `try` block of `HttpErrorMap.__init__` for one
structure: look up the `Response` metadata (`KeyError` when absent), skip
silently when it is `None`, look up its `code` element (`KeyError` when
absent), and parse it as an integer (`ValueError` on non-integer text). -/
def process_structure (st : StructInfo) : Except PyErr (Option Int) :=
  match st.metadata.lookup "Response".toList with
  | none => .error .keyError
  | some none => .ok none
  | some (some ann) =>
    match ann.elements.lookup "code".toList with
    | none => .error .keyError
    | some el =>
      match parsePyInt el.string_value with
      | none => .error .valueError
      | some n => .ok (some n)

/-- The scan loop of `HttpErrorMap.__init__` building `error_api_map`:
`KeyError` is caught (the structure is skipped with a printed note), any
other exception — in particular the `ValueError` of `int()` — propagates
and aborts the constructor. -/
def buildErrorApiMap : List (List Char × StructInfo) →
    Except PyErr (List (List Char × Int))
  | [] => .ok []
  | (name, st) :: rest =>
    match process_structure st with
    | .ok (some n) => (buildErrorApiMap rest).map (fun m => (name, n) :: m)
    | .ok none => buildErrorApiMap rest
    | .error .keyError => buildErrorApiMap rest
    | .error .valueError => .error .valueError

/-- The ten matched keys of the converter's translation table. -/
def converterKeys : List (List Char) :=
  ["date_time".toList, "secret".toList, "any_error".toList, "opaque".toList,
   "dynamic_structure".toList, "uri".toList, "id".toList, "long".toList,
   "double".toList, "binary".toList]

/-- C5 (amended): for inputs matching none of the ten translation entries
(matching is case-insensitive), the converter returns the LOWER-CASED
input — not the input unchanged — with an absent format; the two scenario
evaluations hold as claimed. -/
theorem C5_converter_passthrough :
    (∀ t : List Char, pyLower t ∉ converterKeys →
      metamodel_to_swagger_type_converter t = (pyLower t, none))
    ∧ metamodel_to_swagger_type_converter "LONG".toList =
        ("integer".toList, some "int64".toList)
    ∧ metamodel_to_swagger_type_converter "custom_struct".toList =
        ("custom_struct".toList, none) := by
  refine ⟨?_, by decide, by decide⟩
  intro t h
  simp only [converterKeys, List.mem_cons, List.not_mem_nil, or_false, not_or] at h
  obtain ⟨h1, h2, h3, h4, h5, h6, h7, h8, h9, h10⟩ := h
  simp only [metamodel_to_swagger_type_converter]
  rw [if_neg h1, if_neg h2, if_neg h3, if_neg h4, if_neg h5, if_neg h6,
    if_neg h7, if_neg h8, if_neg h9, if_neg h10]

/-- C5 counterexample: `Custom_Struct` matches no translation entry, yet
the converter does not return it unchanged — it lower-cases it. -/
theorem C5_counterexample :
    pyLower "Custom_Struct".toList ∉ converterKeys
    ∧ metamodel_to_swagger_type_converter "Custom_Struct".toList ≠
        ("Custom_Struct".toList, none)
    ∧ metamodel_to_swagger_type_converter "Custom_Struct".toList =
        ("custom_struct".toList, none) := by
  refine ⟨by decide, by decide, by decide⟩

/-- C5 witness: the pass-through clause applied at the concrete unmatched
input `XYZ`. -/
theorem C5_witness :
    metamodel_to_swagger_type_converter "XYZ".toList = (pyLower "XYZ".toList, none) :=
  C5_converter_passthrough.1 "XYZ".toList (by decide)

/-- C6 counterexample: no case-insensitive truth set of 11 names can
describe `is_type_builtin`, because its `typeset` has 12 pairwise-distinct
lower-case members, each accepted. -/
theorem C6_counterexample : ¬ ∃ S : Finset (List Char), S.card = 11 ∧
    (∀ t : List Char, is_type_builtin t = true ↔ pyLower t ∈ S) := by
  rintro ⟨S, hcard, hiff⟩
  have hsub : builtinTypeset.toFinset ⊆ S := by
    intro x hx
    have hmem : x ∈ builtinTypeset := List.mem_toFinset.mp hx
    have hfix : pyLower x = x ∧ is_type_builtin x = true := by
      fin_cases hmem <;> exact ⟨by decide, by decide⟩
    have hx2 := (hiff x).mp hfix.2
    rwa [hfix.1] at hx2
  have h12 : builtinTypeset.toFinset.card = 12 := by decide
  have hle := Finset.card_le_card hsub
  omega

/-- C6 (amended): `is_type_builtin` accepts exactly the members of a fixed
set of TWELVE primitive type names, compared case-insensitively. -/
theorem C6_is_type_builtin_twelve :
    (∀ t : List Char, is_type_builtin t = true ↔ pyLower t ∈ builtinTypeset)
    ∧ builtinTypeset.length = 12 ∧ builtinTypeset.Nodup := by
  refine ⟨?_, by decide, by decide⟩
  intro t
  by_cases h : pyLower t ∈ builtinTypeset
  · simp [is_type_builtin, h]
  · simp [is_type_builtin, h]

/-- C8: `build_path` always sets `tags` to the `/`-join of the service
name's dot-segments from index 3 on; fewer than 4 segments give the empty
tag string, and the two scenario evaluations hold. -/
theorem C8_build_path_tags :
    (∀ (sn : List Char) (m pa doc : Option (List Char))
        (ps : Option (List SwaggerParam)) (oid resp cons prod : Option (List Char)),
      (build_path sn m pa doc ps oid resp cons prod).tags = tags_from_service_name sn)
    ∧ (∀ sn : List Char, (pySplit '.' sn).length < 4 → tags_from_service_name sn = [[]])
    ∧ tags_from_service_name "com.vmware.vcenter.VM".toList = ["VM".toList]
    ∧ tags_from_service_name "com.vmware.a.b.c".toList = ["b/c".toList] := by
  refine ⟨fun _ _ _ _ _ _ _ _ _ => rfl, ?_, by decide, by decide⟩
  intro sn h
  simp only [tags_from_service_name]
  rw [List.drop_eq_nil_of_le (by omega)]
  rfl

/-- C8 witness: a two-segment service name yields the empty tag string. -/
theorem C8_witness : tags_from_service_name "a.b".toList = [[]] :=
  C8_build_path_tags.2.1 "a.b".toList (by decide)

/-- C10: a path object built without parameters carries no `parameters`
key, on which `create_req_body_from_params_list` raises `KeyError`; with
the key present, exactly the first `requestBodies` reference entry is
removed and hoisted to `requestBody`, and nothing changes when no entry
matches. -/
theorem C10_req_body_access :
    (∀ (sn : List Char) (m pa doc : Option (List Char))
        (oid resp cons prod : Option (List Char)),
      (build_path sn m pa doc none oid resp cons prod).parameters = none)
    ∧ (∀ p : PathObj, p.parameters = none →
        create_req_body_from_params_list p = .error .keyError)
    ∧ (∀ (p : PathObj) (ps : List SwaggerParam) (i : Nat),
        p.parameters = some ps → ps.findIdx? isReqBodyRef = some i →
        create_req_body_from_params_list p =
          .ok { p with requestBody := (ps.getD i ⟨none, 0⟩).ref,
                       parameters := some (ps.eraseIdx i) })
    ∧ (∀ (p : PathObj) (ps : List SwaggerParam),
        p.parameters = some ps → ps.findIdx? isReqBodyRef = none →
        create_req_body_from_params_list p = .ok p) := by
  refine ⟨fun _ _ _ _ _ _ _ _ => rfl, ?_, ?_, ?_⟩
  · intro p h
    simp [create_req_body_from_params_list, h]
  · intro p ps i h hidx
    simp only [create_req_body_from_params_list, h]
    have hne : ps.isEmpty = false := by
      cases ps with
      | nil => simp [List.findIdx?] at hidx
      | cons a l => rfl
    rw [if_neg (by simp [hne]), hidx]
  · intro p ps h hidx
    simp only [create_req_body_from_params_list, h]
    by_cases he : ps.isEmpty
    · rw [if_pos he]
    · rw [if_neg he, hidx]

/-- Fixture: a non-reference parameters entry. -/
def plainEntry : SwaggerParam := ⟨none, 3⟩

/-- Fixture: a first request-body reference entry. -/
def rbEntryA : SwaggerParam := ⟨some "#/components/requestBodies/A".toList, 1⟩

/-- Fixture: a second request-body reference entry. -/
def rbEntryB : SwaggerParam := ⟨some "#/components/requestBodies/B".toList, 2⟩

/-- C10 witness: on a concrete path object the first reference entry (and
only it) is hoisted. -/
theorem C10_witness :
    create_req_body_from_params_list
        (build_path "s".toList none none none (some [plainEntry, rbEntryA, rbEntryB])
          none none none none) =
      .ok { build_path "s".toList none none none (some [plainEntry, rbEntryA, rbEntryB])
              none none none none with
            requestBody := ([plainEntry, rbEntryA, rbEntryB].getD 1 ⟨none, 0⟩).ref
            parameters := some ([plainEntry, rbEntryA, rbEntryB].eraseIdx 1) } :=
  C10_req_body_access.2.2.1 _ [plainEntry, rbEntryA, rbEntryB] 1 rfl (by decide)

/-- Fixture: a standard-errors structure whose `Response.code` text is not
an integer. -/
def badCodeStruct : StructInfo :=
  { metadata := [("Response".toList,
      some { elements := [("code".toList, { string_value := "not_an_int".toList })] })] }

/-- Fixture: a standard-errors structure with no `Response` annotation. -/
def noRespStruct : StructInfo := { metadata := [] }

/-- C4 counterexample: a structure with non-integer code text makes the
constructor's scan fail with `ValueError`, while a structure with a
missing annotation is skipped — the two are not treated identically and
the exception does propagate. -/
theorem C4_counterexample :
    buildErrorApiMap [("bad".toList, badCodeStruct)] = .error .valueError
    ∧ buildErrorApiMap [("missing".toList, noRespStruct)] = .ok []
    ∧ (Except.error PyErr.valueError : Except PyErr (List (List Char × Int))) ≠ .ok [] := by
  refine ⟨by decide, by decide, by decide⟩

/-- C4 (amended): the scan catches only `KeyError` — a missing `Response`
annotation or `code` element is skipped — while non-integer code text
raises `ValueError`, which propagates out of the constructor. -/
theorem C4_value_error_propagates :
    (∀ (nm : List Char) (st : StructInfo) (rest : List (List Char × StructInfo)),
      process_structure st = .error .keyError →
      buildErrorApiMap ((nm, st) :: rest) = buildErrorApiMap rest)
    ∧ (∀ (nm : List Char) (st : StructInfo) (rest : List (List Char × StructInfo)),
      process_structure st = .error .valueError →
      buildErrorApiMap ((nm, st) :: rest) = .error .valueError)
    ∧ (∀ (st : StructInfo) (ann : MetaVal) (el : ElemVal),
      st.metadata.lookup "Response".toList = some (some ann) →
      ann.elements.lookup "code".toList = some el →
      parsePyInt el.string_value = none →
      process_structure st = .error .valueError)
    ∧ (∀ st : StructInfo, st.metadata.lookup "Response".toList = none →
      process_structure st = .error .keyError) := by
  refine ⟨?_, ?_, ?_, ?_⟩
  · intro nm st rest h
    simp [buildErrorApiMap, h]
  · intro nm st rest h
    simp [buildErrorApiMap, h]
  · intro st ann el h1 h2 h3
    simp only [process_structure, h1, h2, h3]
  · intro st h
    simp only [process_structure, h]

/-- C4 witness: the propagation clause applied to the concrete bad
structure. -/
theorem C4_witness :
    buildErrorApiMap [("e".toList, badCodeStruct)] = .error .valueError :=
  C4_value_error_propagates.2.1 "e".toList badCodeStruct [] (by decide)

theorem findAux_nil (n : List Char) :
    findAux [] n = if n.isPrefixOf [] then some 0 else none := rfl

theorem findAux_cons (c : Char) (t n : List Char) :
    findAux (c :: t) n =
      if n.isPrefixOf (c :: t) then some 0 else (findAux t n).map (· + 1) := rfl

theorem findAux_some_lt (s : List Char) (a : Char) (n : List Char) :
    ∀ i, findAux s (a :: n) = some i → i < s.length := by
  induction s with
  | nil =>
    intro i h
    rw [findAux_nil] at h
    simp [List.isPrefixOf] at h
  | cons c t ih =>
    intro i h
    rw [findAux_cons] at h
    by_cases hp : (a :: n).isPrefixOf (c :: t) = true
    · rw [if_pos hp] at h
      cases h
      simp
    · rw [if_neg hp] at h
      obtain ⟨j, hj, rfl⟩ := Option.map_eq_some'.mp h
      have := ih j hj
      simp
      omega

theorem findAux_append_none_char (u : List Char) (c : Char) (v : List Char)
    (h : findAux u [c] = none) :
    findAux (u ++ v) [c] = (findAux v [c]).map (· + u.length) := by
  induction u with
  | nil =>
    simp only [List.nil_append, List.length_nil]
    cases hv : findAux v [c] <;> simp
  | cons d t ih =>
    rw [findAux_cons] at h
    by_cases hp : [c].isPrefixOf (d :: t) = true
    · rw [if_pos hp] at h; cases h
    · rw [if_neg hp] at h
      have ht : findAux t [c] = none := by
        cases hh : findAux t [c]
        · rfl
        · rw [hh] at h; simp at h
      have hp2 : ¬ [c].isPrefixOf (d :: (t ++ v)) = true := by
        simp only [List.isPrefixOf] at hp ⊢
        simpa using hp
      rw [List.cons_append, findAux_cons, if_neg hp2, ih ht]
      cases hv : findAux v [c] <;> (simp; try omega)

theorem findAux_append_some_char (u : List Char) (c : Char) (v : List Char) :
    ∀ i, findAux u [c] = some i → findAux (u ++ v) [c] = some i := by
  induction u with
  | nil =>
    intro i h
    rw [findAux_nil] at h
    simp [List.isPrefixOf] at h
  | cons d t ih =>
    intro i h
    rw [findAux_cons] at h
    rw [List.cons_append, findAux_cons]
    by_cases hp : [c].isPrefixOf (d :: t) = true
    · rw [if_pos hp] at h
      have hp2 : [c].isPrefixOf (d :: (t ++ v)) = true := by
        simp only [List.isPrefixOf] at hp ⊢
        simpa using hp
      rw [if_pos hp2]
      exact h
    · rw [if_neg hp] at h
      obtain ⟨j, hj, rfl⟩ := Option.map_eq_some'.mp h
      have hp2 : ¬ [c].isPrefixOf (d :: (t ++ v)) = true := by
        simp only [List.isPrefixOf] at hp ⊢
        simpa using hp
      rw [if_neg hp2, ih j hj]
      rfl

theorem findAux_isSome_of_prefix_drop (p : List Char) :
    ∀ (i : Nat) (s : List Char), p.isPrefixOf (s.drop i) = true →
    (findAux s p).isSome = true := by
  intro i
  induction i with
  | zero =>
    intro s h
    simp only [List.drop_zero] at h
    cases s with
    | nil => rw [findAux_nil, if_pos h]; rfl
    | cons c t => rw [findAux_cons, if_pos h]; rfl
  | succ i ih =>
    intro s h
    cases s with
    | nil =>
      simp only [List.drop_nil] at h
      rw [findAux_nil, if_pos h]
      rfl
    | cons c t =>
      simp only [List.drop_succ_cons] at h
      have := ih t h
      rw [findAux_cons]
      by_cases hp : p.isPrefixOf (c :: t) = true
      · rw [if_pos hp]; rfl
      · rw [if_neg hp]
        cases hh : findAux t p
        · rw [hh] at this; simp at this
        · simp

theorem add_query_param_none (url param : List Char)
    (h : findAux url ['?'] = none) :
    add_query_param url param = url ++ '?' :: param := by
  simp only [add_query_param, h]

theorem add_query_param_present (url param : List Char) (qi : Nat)
    (hq : findAux url ['?'] = some qi)
    (hs : (findAux (url.drop (qi + 1)) param).isSome = true) :
    add_query_param url param = url := by
  have hlt := findAux_some_lt url '?' [] qi hq
  simp only [add_query_param, hq]
  rw [if_neg (by omega), if_pos hs]

theorem add_query_param_absent (url param : List Char) (qi : Nat)
    (hq : findAux url ['?'] = some qi)
    (hs : (findAux (url.drop (qi + 1)) param).isSome = false) :
    add_query_param url param = url ++ '&' :: param := by
  have hlt := findAux_some_lt url '?' [] qi hq
  simp only [add_query_param, hq]
  rw [if_neg (by omega), if_neg (by simp [hs])]

theorem add_query_param_idem (url param : List Char) :
    add_query_param (add_query_param url param) param = add_query_param url param := by
  cases hq : findAux url ['?'] with
  | none =>
    rw [add_query_param_none url param hq]
    have h1 : findAux (url ++ '?' :: param) ['?'] = some url.length := by
      rw [findAux_append_none_char url '?' ('?' :: param) hq]
      have h0 : findAux ('?' :: param) ['?'] = some 0 := by
        rw [findAux_cons, if_pos (by simp [List.isPrefixOf])]
      rw [h0]
      simp
    have h2 : (url ++ '?' :: param).drop (url.length + 1) = param := by
      rw [List.append_cons]
      have hlen : url.length + 1 = (url ++ ['?']).length := by simp
      rw [hlen, List.drop_left]
    have hself : (findAux param param).isSome = true := by
      apply findAux_isSome_of_prefix_drop param 0
      simp [(List.isPrefixOf_iff_prefix).mpr (List.prefix_refl param)]
    simp only [add_query_param, h1]
    rw [if_neg (by simp), h2, if_pos hself]
  | some qi =>
    cases hs : (findAux (url.drop (qi + 1)) param).isSome with
    | true =>
      rw [add_query_param_present url param qi hq hs,
        add_query_param_present url param qi hq hs]
    | false =>
      rw [add_query_param_absent url param qi hq hs]
      have hlt := findAux_some_lt url '?' [] qi hq
      have h1 : findAux (url ++ '&' :: param) ['?'] = some qi :=
        findAux_append_some_char url '?' ('&' :: param) qi hq
      have h2 : (url ++ '&' :: param).drop (qi + 1) =
          url.drop (qi + 1) ++ '&' :: param :=
        List.drop_append_of_le_length (by omega)
      have h3 : ((url.drop (qi + 1)) ++ '&' :: param).drop
          ((url.drop (qi + 1)).length + 1) = param := by
        rw [List.append_cons]
        have hlen : (url.drop (qi + 1)).length + 1 =
            ((url.drop (qi + 1)) ++ ['&']).length := by simp
        rw [hlen, List.drop_left]
      have h4 : (findAux ((url ++ '&' :: param).drop (qi + 1)) param).isSome = true := by
        rw [h2]
        apply findAux_isSome_of_prefix_drop param ((url.drop (qi + 1)).length + 1)
        rw [h3]
        exact (List.isPrefixOf_iff_prefix).mpr (List.prefix_refl param)
      exact add_query_param_present (url ++ '&' :: param) param qi h1 h4

/-- C7: `add_query_param` is idempotent; it appends with `?` when the url
has no query string, returns the url unchanged when the parameter already
occurs after the `?`, appends with `&` otherwise, and the scenario
evaluations hold. -/
theorem C7_add_query_param_idempotent (url param : List Char) :
    add_query_param (add_query_param url param) param = add_query_param url param
    ∧ (findAux url ['?'] = none → add_query_param url param = url ++ '?' :: param)
    ∧ (∀ qi : Nat, findAux url ['?'] = some qi →
        (findAux (url.drop (qi + 1)) param).isSome = true →
        add_query_param url param = url)
    ∧ (∀ qi : Nat, findAux url ['?'] = some qi →
        (findAux (url.drop (qi + 1)) param).isSome = false →
        add_query_param url param = url ++ '&' :: param)
    ∧ add_query_param "/x?a=1".toList "b=2".toList = "/x?a=1&b=2".toList
    ∧ add_query_param "/x?a=1&b=2".toList "b=2".toList = "/x?a=1&b=2".toList :=
  ⟨add_query_param_idem url param, add_query_param_none url param,
   fun qi => add_query_param_present url param qi,
   fun qi => add_query_param_absent url param qi, by decide, by decide⟩

/-- C7 witness: the no-query-string clause applied at a concrete url. -/
theorem C7_witness :
    add_query_param "/x".toList "a=1".toList = "/x".toList ++ '?' :: "a=1".toList :=
  (C7_add_query_param_idempotent "/x".toList "a=1".toList).2.1 (by decide)

/-- Fixture: the `resource_pool` parameter of the spec scenario, carrying
`PathVariable` metadata with value `resource-pool`. -/
def rpParam : Param :=
  { name := "resource_pool".toList
    metadata := [("PathVariable".toList,
      { elements := [("value".toList, { string_value := "resource-pool".toList })] })] }

/-- Fixture: a plain parameter named `a` with no metadata. -/
def aParam : Param := { name := "a".toList, metadata := [] }

/-- Fixture: a parameter named `b` whose `PathVariable` value is `a`. -/
def bParam : Param :=
  { name := "b".toList
    metadata := [("PathVariable".toList,
      { elements := [("value".toList, { string_value := "a".toList })] })] }

/-- Fixture: a parameter named `c` whose `PathVariable` value is `a`. -/
def cParam : Param :=
  { name := "c".toList
    metadata := [("PathVariable".toList,
      { elements := [("value".toList, { string_value := "a".toList })] })] }

theorem findPathParam_mem (plc : List Char) :
    ∀ (l : List Param) (p : Param), findPathParam plc l = .ok (some p) → p ∈ l := by
  intro l
  induction l with
  | nil => intro p h; simp [findPathParam] at h
  | cons q rest ih =>
    intro p h
    cases hq : is_param_path_variable q plc with
    | error e => simp [findPathParam, hq] at h
    | ok b =>
      cases b with
      | false =>
        simp only [findPathParam, hq] at h
        exact List.mem_cons_of_mem q (ih p h)
      | true =>
        simp only [findPathParam, hq, Except.ok.injEq, Option.some.injEq] at h
        subst h
        exact List.mem_cons_self q rest

theorem eppLoop_perm : ∀ (toks : List (List Char)) (other : List Param) (u : List Char)
    (pp op : List Param) (u' : List Char) (ds : List (List Char)),
    eppLoop toks other u = .ok (pp, op, u', ds) →
    (pp ++ op).Perm other ∧ op.Sublist other := by
  intro toks
  induction toks with
  | nil =>
    intro other u pp op u' ds h
    simp only [eppLoop, Except.ok.injEq, Prod.mk.injEq] at h
    obtain ⟨h1, h2, _, _⟩ := h
    subst h1 h2
    exact ⟨by simp, List.Sublist.refl other⟩
  | cons plc rest ih =>
    intro other u pp op u' ds h
    cases hf : findPathParam plc other with
    | error e => simp [eppLoop, hf] at h
    | ok o =>
      cases o with
      | none =>
        simp only [eppLoop, hf] at h
        cases hrec : eppLoop rest other u with
        | error e => rw [hrec] at h; simp [Except.map] at h
        | ok r =>
          obtain ⟨r1, r2, r3, r4⟩ := r
          rw [hrec] at h
          simp only [Except.map, Except.ok.injEq, Prod.mk.injEq] at h
          obtain ⟨h1, h2, _, _⟩ := h
          subst h1 h2
          exact ih other u r1 r2 r3 r4 hrec
      | some p =>
        have hmem : p ∈ other := findPathParam_mem plc other p hf
        simp only [eppLoop, hf] at h
        cases hrec : eppLoop rest (other.erase p)
            (if p.name = plc then u
             else strReplace u (wrapBraces plc) (wrapBraces p.name)) with
        | error e => rw [hrec] at h; simp [Except.map] at h
        | ok r =>
          obtain ⟨r1, r2, r3, r4⟩ := r
          rw [hrec] at h
          simp only [Except.map, Except.ok.injEq, Prod.mk.injEq] at h
          obtain ⟨h1, h2, _, _⟩ := h
          subst h1 h2
          obtain ⟨hperm, hsub⟩ := ih (other.erase p) _ r1 r2 r3 r4 hrec
          constructor
          · rw [List.cons_append]
            exact (hperm.cons p).trans (List.perm_cons_erase hmem).symm
          · exact hsub.trans (List.erase_sublist p other)

/-- C3 (amended): the two groups returned by `extract_path_parameters`
together form a permutation of the input parameters, the "other" group is
an order-preserving sublist of the input, and — provided the input list
has no duplicate parameter — the two groups are disjoint. -/
theorem C3_partition (params : List Param) (url : List Char)
    (pp op : List Param) (u' : List Char) (ds : List (List Char))
    (h : extract_path_parameters params url = .ok (pp, op, u', ds)) :
    (pp ++ op).Perm params ∧ op.Sublist params ∧ (params.Nodup → pp.Disjoint op) := by
  obtain ⟨hperm, hsub⟩ := eppLoop_perm (plcScan url) params url pp op u' ds h
  refine ⟨hperm, hsub, fun hnd => ?_⟩
  exact List.disjoint_of_nodup_append (hperm.nodup_iff.mpr hnd)

/-- C3 counterexample: with the parameter named `a` occurring twice in the
input list, that parameter lands in both returned groups, so the groups
are not disjoint. -/
theorem C3_counterexample :
    extract_path_parameters [aParam, aParam] "/\x7ba\x7d".toList =
      .ok ([aParam], [aParam], "/\x7ba\x7d".toList, [])
    ∧ ¬ ([aParam] : List Param).Disjoint [aParam] :=
  ⟨by decide, fun h => h (List.mem_singleton_self aParam) (List.mem_singleton_self aParam)⟩

/-- C3 witness: the partition properties at the resource-pool scenario. -/
theorem C3_witness :
    (([rpParam] ++ []).Perm [rpParam]) ∧ (([] : List Param).Sublist [rpParam])
    ∧ ([rpParam].Nodup → ([rpParam] : List Param).Disjoint []) :=
  C3_partition [rpParam] "/vcenter/resource-pool/\x7bresource-pool\x7d".toList
    [rpParam] [] "/vcenter/resource-pool/\x7bresource_pool\x7d".toList [] (by decide)

/-- C2: path reconciliation matches each placeholder, scanned left to
right, to the first not-yet-assigned parameter whose name equals the
placeholder or whose `PathVariable` value equals it; the match is removed
from the pool, the url is rewritten when the matched name differs, and
the resource-pool scenario evaluates as claimed. -/
theorem C2_first_match_reconciliation :
    extract_path_parameters [rpParam] "/vcenter/resource-pool/\x7bresource-pool\x7d".toList =
      .ok ([rpParam], [], "/vcenter/resource-pool/\x7bresource_pool\x7d".toList, [])
    ∧ (∀ (plc : List Char) (p : Param) (rest : List Param),
        is_param_path_variable p plc = .ok true →
        findPathParam plc (p :: rest) = .ok (some p))
    ∧ (∀ (plc : List Char) (p : Param) (rest : List Param),
        is_param_path_variable p plc = .ok false →
        findPathParam plc (p :: rest) = findPathParam plc rest)
    ∧ (∀ (p : Param) (plc : List Char), p.name = plc →
        is_param_path_variable p plc = .ok true)
    ∧ (∀ (p : Param) (plc : List Char) (ann : MetaVal) (el : ElemVal),
        p.metadata.lookup "PathVariable".toList = some ann →
        ann.elements.lookup "value".toList = some el →
        el.string_value = plc →
        is_param_path_variable p plc = .ok true)
    ∧ (∀ (plc : List Char) (rest : List (List Char)) (other : List Param)
        (p : Param) (u : List Char),
        findPathParam plc other = .ok (some p) →
        eppLoop (plc :: rest) other u =
          (eppLoop rest (other.erase p)
            (if p.name = plc then u
             else strReplace u (wrapBraces plc) (wrapBraces p.name))).map
            (fun r => (p :: r.1, r.2.1, r.2.2.1, r.2.2.2))) := by
  refine ⟨by decide, ?_, ?_, ?_, ?_, ?_⟩
  · intro plc p rest h
    simp [findPathParam, h]
  · intro plc p rest h
    simp [findPathParam, h]
  · intro p plc h
    simp [is_param_path_variable, h]
  · intro p plc ann el h1 h2 h3
    by_cases hn : p.name = plc
    · simp [is_param_path_variable, hn]
    · simp only [is_param_path_variable, if_neg hn, h1, h2, h3]
      simp
  · intro plc rest other p u h
    simp only [eppLoop, h]

/-- C2 witness: the first-match clause applied to the resource-pool
parameter and placeholder. -/
theorem C2_witness :
    findPathParam "resource-pool".toList [rpParam] = .ok (some rpParam) :=
  C2_first_match_reconciliation.2.1 "resource-pool".toList rpParam [] (by decide)

/-- A well-formed token or parameter name for url-shape reasoning:
non-empty and free of braces and newlines. -/
def goodTok (t : List Char) : Prop :=
  t ≠ [] ∧ lbrace ∉ t ∧ rbrace ∉ t ∧ nlChar ∉ t

instance decGoodTok (t : List Char) : Decidable (goodTok t) := by
  unfold goodTok
  infer_instance

/-- Assemble a url from a leading gap and a list of
`(placeholder token, following gap)` pairs. -/
def assembleUrl : List Char → List (List Char × List Char) → List Char
  | g0, [] => g0
  | g0, (t, g) :: rest => g0 ++ lbrace :: (t ++ rbrace :: assembleUrl g rest)

/-- Well-formedness of the url decomposition: gaps contain no opening
brace and tokens are good. -/
def goodUrlParts (g0 : List Char) (parts : List (List Char × List Char)) : Prop :=
  lbrace ∉ g0 ∧ ∀ tg ∈ parts, goodTok tg.1 ∧ lbrace ∉ tg.2

instance decGoodUrlParts (g0 : List Char) (parts : List (List Char × List Char)) :
    Decidable (goodUrlParts g0 parts) := by
  unfold goodUrlParts
  infer_instance

theorem plcScan_append_gap : ∀ (g s : List Char), lbrace ∉ g →
    plcScan (g ++ s) = plcScan s := by
  intro g
  induction g with
  | nil => intro s _; rfl
  | cons c g' ih =>
    intro s hg
    simp only [List.mem_cons, not_or] at hg
    rw [List.cons_append, plcScan_cons_other c _ (fun h => hg.1 h.symm), ih s hg.2]

theorem grabAfter_token : ∀ (t' acc s : List Char), rbrace ∉ t' → nlChar ∉ t' →
    grabAfter acc (t' ++ rbrace :: s) = some (acc.reverse ++ t', s) := by
  intro t'
  induction t' with
  | nil =>
    intro acc s _ _
    simp [grabAfter]
  | cons c t ih =>
    intro acc s hr hn
    simp only [List.mem_cons, not_or] at hr hn
    have hc1 : (c == rbrace) = false := by
      simp only [beq_eq_false_iff_ne, ne_eq]
      exact fun h => hr.1 h.symm
    have hc2 : (c == nlChar) = false := by
      simp only [beq_eq_false_iff_ne, ne_eq]
      exact fun h => hn.1 h.symm
    rw [List.cons_append]
    simp only [grabAfter, hc1, hc2]
    rw [ih (c :: acc) s hr.2 hn.2]
    simp

theorem grabGroup_token (t s : List Char) (ht : goodTok t) :
    grabGroup (t ++ rbrace :: s) = some (t, s) := by
  obtain ⟨hne, _, hr, hn⟩ := ht
  match t, hne with
  | c :: t', _ =>
    simp only [List.mem_cons, not_or] at hr hn
    have hc2 : (c == nlChar) = false := by
      simp only [beq_eq_false_iff_ne, ne_eq]
      exact fun h => hn.1 h.symm
    rw [List.cons_append]
    simp only [grabGroup, hc2]
    rw [if_neg (by simp [hc2])]
    rw [grabAfter_token t' [c] s hr.2 hn.2]
    simp

theorem plcScan_assemble : ∀ (parts : List (List Char × List Char)) (g0 : List Char),
    goodUrlParts g0 parts →
    plcScan (assembleUrl g0 parts) = parts.map Prod.fst := by
  intro parts
  induction parts with
  | nil =>
    intro g0 hg
    have h := plcScan_append_gap g0 [] hg.1
    simpa using h
  | cons tg rest ih =>
    obtain ⟨t, g⟩ := tg
    intro g0 hg
    obtain ⟨hg0, hparts⟩ := hg
    have hts := hparts (t, g) (List.mem_cons_self _ _)
    simp only [assembleUrl, List.map_cons]
    rw [plcScan_append_gap g0 _ hg0,
      plcScan_cons_brace_some _ t (assembleUrl g rest) (grabGroup_token t _ hts.1),
      ih g ⟨hts.2, fun x hx => hparts x (List.mem_cons_of_mem _ hx)⟩]

theorem strReplace_append_gap (o n : List Char) : ∀ (g s : List Char), lbrace ∉ g →
    strReplace (g ++ s) (lbrace :: o) n = g ++ strReplace s (lbrace :: o) n := by
  intro g
  induction g with
  | nil => intro s _; rfl
  | cons c g' ih =>
    intro s hg
    simp only [List.mem_cons, not_or] at hg
    have hnp : ¬ (lbrace :: o).isPrefixOf (c :: (g' ++ s)) = true := by
      simp only [List.isPrefixOf, Bool.and_eq_true, beq_iff_eq]
      exact fun h => hg.1 h.1
    rw [List.cons_append, strReplace_neg c (g' ++ s) _ n (by simp) hnp, ih s hg.2]
    rfl

theorem prefix_wrap_eq (t1 : List Char) : ∀ (t s : List Char), rbrace ∉ t1 → rbrace ∉ t →
    (t1 ++ [rbrace]).isPrefixOf (t ++ rbrace :: s) = true → t1 = t := by
  induction t1 with
  | nil =>
    intro t s _ hrt h
    cases t with
    | nil => rfl
    | cons c t' =>
      simp only [List.nil_append, List.cons_append, List.isPrefixOf,
        Bool.and_eq_true, beq_iff_eq] at h
      simp only [List.mem_cons, not_or] at hrt
      exact absurd h.1 hrt.1
  | cons a t1' ih =>
    intro t s hr1 hrt h
    simp only [List.mem_cons, not_or] at hr1
    cases t with
    | nil =>
      simp only [List.cons_append, List.nil_append, List.isPrefixOf,
        Bool.and_eq_true, beq_iff_eq] at h
      exact absurd h.1.symm hr1.1
    | cons c t' =>
      simp only [List.cons_append, List.isPrefixOf, Bool.and_eq_true, beq_iff_eq] at h
      simp only [List.mem_cons, not_or] at hrt
      rw [ih t' s hr1.2 hrt.2 h.2, h.1]

theorem strReplace_assemble (t1 n1 : List Char) (ht1 : goodTok t1) :
    ∀ (parts : List (List Char × List Char)) (g0 : List Char),
    goodUrlParts g0 parts →
    strReplace (assembleUrl g0 parts) (wrapBraces t1) (wrapBraces n1) =
      assembleUrl g0 (parts.map (fun tg => (if tg.1 = t1 then n1 else tg.1, tg.2))) := by
  intro parts
  induction parts with
  | nil =>
    intro g0 hg
    simp only [assembleUrl, List.map_nil, wrapBraces]
    have h := strReplace_append_gap (t1 ++ [rbrace]) (lbrace :: (n1 ++ [rbrace])) g0 [] hg.1
    simp only [List.append_nil] at h
    rw [h, strReplace_nil _ _ (by simp), List.append_nil]
  | cons tg rest ih =>
    obtain ⟨t, g⟩ := tg
    intro g0 hg
    obtain ⟨hg0, hparts⟩ := hg
    have hts := hparts (t, g) (List.mem_cons_self _ _)
    have hrest : goodUrlParts g rest :=
      ⟨hts.2, fun x hx => hparts x (List.mem_cons_of_mem _ hx)⟩
    simp only [assembleUrl, List.map_cons, wrapBraces]
    rw [strReplace_append_gap (t1 ++ [rbrace]) _ g0 _ hg0]
    by_cases hteq : t = t1
    · subst hteq
      have hpre : (lbrace :: (t ++ [rbrace])).isPrefixOf
          (lbrace :: (t ++ rbrace :: assembleUrl g rest)) = true := by
        rw [List.isPrefixOf_iff_prefix]
        exact ⟨assembleUrl g rest, by simp⟩
      rw [strReplace_pos _ _ _ (by simp) hpre]
      have hdrop : (lbrace :: (t ++ rbrace :: assembleUrl g rest)).drop
          (lbrace :: (t ++ [rbrace])).length = assembleUrl g rest := by
        have hl : (lbrace :: (t ++ [rbrace])).length = t.length + 1 + 1 := by simp
        rw [hl, List.drop_succ_cons, List.append_cons t rbrace (assembleUrl g rest)]
        have hl2 : t.length + 1 = (t ++ [rbrace]).length := by simp
        rw [hl2, List.drop_left]
      rw [hdrop]
      have hih := ih g hrest
      simp only [wrapBraces] at hih
      rw [hih]
      simp
    · have hnp : ¬ (lbrace :: (t1 ++ [rbrace])).isPrefixOf
          (lbrace :: (t ++ rbrace :: assembleUrl g rest)) = true := by
        intro h
        simp only [List.isPrefixOf, Bool.and_eq_true, beq_iff_eq] at h
        exact hteq (prefix_wrap_eq t1 t _ ht1.2.2.1 hts.1.2.2.1 h.2).symm
      rw [strReplace_neg lbrace _ _ _ (by simp) hnp]
      rw [strReplace_append_gap (t1 ++ [rbrace]) _ t _ hts.1.2.1]
      have hlr : (lbrace == rbrace) = false := by decide
      have hnp2 : ¬ (lbrace :: (t1 ++ [rbrace])).isPrefixOf
          (rbrace :: assembleUrl g rest) = true := by
        simp [List.isPrefixOf, hlr]
      rw [strReplace_neg rbrace _ _ _ (by simp) hnp2]
      have hih := ih g hrest
      simp only [wrapBraces] at hih
      rw [hih]
      simp [if_neg hteq]

/-- C9: the url rewrite performed for a matched parameter is Python's
whole-string `str.replace`: over a well-formed url every placeholder span
carrying the matched token is renamed at once, so with a duplicated
placeholder all occurrences take the first matching parameter's name and
later iterations for that placeholder find no occurrence left to rewrite
(their replace is a no-op), as the two concrete runs show. -/
theorem C9_rewrite_replaces_all :
    (∀ (t1 n1 g0 : List Char) (parts : List (List Char × List Char)),
      goodTok t1 → goodUrlParts g0 parts →
      strReplace (assembleUrl g0 parts) (wrapBraces t1) (wrapBraces n1) =
        assembleUrl g0 (parts.map (fun tg => (if tg.1 = t1 then n1 else tg.1, tg.2))))
    ∧ extract_path_parameters [bParam, cParam] "/x/\x7ba\x7d/\x7ba\x7d".toList =
        .ok ([bParam, cParam], [], "/x/\x7bb\x7d/\x7bb\x7d".toList, [])
    ∧ extract_path_parameters [bParam] "/\x7ba\x7d/\x7ba\x7d/\x7ba\x7d".toList =
        .ok ([bParam], [], "/\x7bb\x7d/\x7bb\x7d/\x7bb\x7d".toList,
          ["a".toList, "a".toList]) :=
  ⟨fun t1 n1 g0 parts ht hg => strReplace_assemble t1 n1 ht parts g0 hg,
   by decide, by decide⟩

/-- C9 witness: the replace-all clause at a concrete two-span url. -/
theorem C9_witness :
    strReplace (assembleUrl "/x/".toList [("a".toList, "/".toList), ("a".toList, [])])
        (wrapBraces "a".toList) (wrapBraces "b".toList) =
      assembleUrl "/x/".toList
        ([("a".toList, "/".toList), ("a".toList, [])].map
          (fun tg => (if tg.1 = "a".toList then "b".toList else tg.1, tg.2))) :=
  C9_rewrite_replaces_all.1 "a".toList "b".toList "/x/".toList
    [("a".toList, "/".toList), ("a".toList, [])] (by decide) (by decide)

theorem eppLoop_tokens : ∀ (pending : List (List Char)) (other : List Param)
    (g0 : List Char) (parts : List (List Char × List Char)) (N : List (List Char)),
    goodUrlParts g0 parts →
    (∀ t ∈ pending, goodTok t) →
    (∀ p ∈ other, goodTok p.name) →
    (∀ t ∈ parts.map Prod.fst, t ∈ pending ∨ t ∈ N) →
    ∀ (pp op : List Param) (u' : List Char) (ds : List (List Char)),
    eppLoop pending other (assembleUrl g0 parts) = .ok (pp, op, u', ds) →
    ∀ x ∈ plcScan u', x ∈ pp.map Param.name ∨ x ∈ ds ∨ x ∈ N := by
  intro pending
  induction pending with
  | nil =>
    intro other g0 parts N hgp _ _ hcover pp op u' ds h x hx
    simp only [eppLoop, Except.ok.injEq, Prod.mk.injEq] at h
    obtain ⟨h1, _, h3, h4⟩ := h
    subst h1 h3 h4
    rw [plcScan_assemble parts g0 hgp] at hx
    rcases hcover x hx with hh | hh
    · simp at hh
    · exact Or.inr (Or.inr hh)
  | cons plc rest ih =>
    intro other g0 parts N hgp hpend hoth hcover pp op u' ds h x hx
    have hplc : goodTok plc := hpend plc (List.mem_cons_self _ _)
    have hpend' : ∀ t ∈ rest, goodTok t :=
      fun t ht => hpend t (List.mem_cons_of_mem _ ht)
    cases hf : findPathParam plc other with
    | error e => simp [eppLoop, hf] at h
    | ok o =>
      cases o with
      | none =>
        simp only [eppLoop, hf] at h
        cases hrec : eppLoop rest other (assembleUrl g0 parts) with
        | error e => rw [hrec] at h; simp [Except.map] at h
        | ok r =>
          obtain ⟨r1, r2, r3, r4⟩ := r
          rw [hrec] at h
          simp only [Except.map, Except.ok.injEq, Prod.mk.injEq] at h
          obtain ⟨h1, _, h3, h4⟩ := h
          subst h1 h3 h4
          have hcover' : ∀ t ∈ parts.map Prod.fst, t ∈ rest ∨ t ∈ plc :: N := by
            intro t ht
            rcases hcover t ht with hh | hh
            · rcases List.mem_cons.mp hh with hh2 | hh2
              · exact Or.inr (by simp [hh2])
              · exact Or.inl hh2
            · exact Or.inr (List.mem_cons_of_mem _ hh)
          have hres := ih other g0 parts (plc :: N) hgp hpend' hoth hcover'
            r1 r2 r3 r4 hrec x hx
          rcases hres with hh | hh | hh
          · exact Or.inl hh
          · exact Or.inr (Or.inl (List.mem_cons_of_mem _ hh))
          · rcases List.mem_cons.mp hh with hh2 | hh2
            · exact Or.inr (Or.inl (by simp [hh2]))
            · exact Or.inr (Or.inr hh2)
      | some p =>
        have hpmem : p ∈ other := findPathParam_mem plc other p hf
        have hpgood : goodTok p.name := hoth p hpmem
        have hoth' : ∀ q ∈ other.erase p, goodTok q.name :=
          fun q hq => hoth q (List.mem_of_mem_erase hq)
        simp only [eppLoop, hf] at h
        by_cases hne : p.name = plc
        · rw [if_pos hne] at h
          cases hrec : eppLoop rest (other.erase p) (assembleUrl g0 parts) with
          | error e => rw [hrec] at h; simp [Except.map] at h
          | ok r =>
            obtain ⟨r1, r2, r3, r4⟩ := r
            rw [hrec] at h
            simp only [Except.map, Except.ok.injEq, Prod.mk.injEq] at h
            obtain ⟨h1, _, h3, h4⟩ := h
            subst h1 h3 h4
            have hcover' : ∀ t ∈ parts.map Prod.fst, t ∈ rest ∨ t ∈ p.name :: N := by
              intro t ht
              rcases hcover t ht with hh | hh
              · rcases List.mem_cons.mp hh with hh2 | hh2
                · exact Or.inr (by simp [hh2, hne])
                · exact Or.inl hh2
              · exact Or.inr (List.mem_cons_of_mem _ hh)
            have hres := ih (other.erase p) g0 parts (p.name :: N) hgp hpend' hoth'
              hcover' r1 r2 r3 r4 hrec x hx
            rcases hres with hh | hh | hh
            · exact Or.inl (by simp only [List.map_cons]; exact List.mem_cons_of_mem _ hh)
            · exact Or.inr (Or.inl hh)
            · rcases List.mem_cons.mp hh with hh2 | hh2
              · exact Or.inl (by simp [hh2])
              · exact Or.inr (Or.inr hh2)
        · rw [if_neg hne] at h
          rw [strReplace_assemble plc p.name hplc parts g0 hgp] at h
          have hgp' : goodUrlParts g0
              (parts.map (fun tg => (if tg.1 = plc then p.name else tg.1, tg.2))) := by
            refine ⟨hgp.1, ?_⟩
            intro tg htg
            obtain ⟨tg0, htg0, rfl⟩ := List.mem_map.mp htg
            refine ⟨?_, (hgp.2 tg0 htg0).2⟩
            by_cases hc : tg0.1 = plc
            · simpa [hc] using hpgood
            · simpa [hc] using (hgp.2 tg0 htg0).1
          cases hrec : eppLoop rest (other.erase p)
              (assembleUrl g0
                (parts.map (fun tg => (if tg.1 = plc then p.name else tg.1, tg.2)))) with
          | error e => rw [hrec] at h; simp [Except.map] at h
          | ok r =>
            obtain ⟨r1, r2, r3, r4⟩ := r
            rw [hrec] at h
            simp only [Except.map, Except.ok.injEq, Prod.mk.injEq] at h
            obtain ⟨h1, _, h3, h4⟩ := h
            subst h1 h3 h4
            have hcover' : ∀ t ∈ (parts.map
                  (fun tg => (if tg.1 = plc then p.name else tg.1, tg.2))).map Prod.fst,
                t ∈ rest ∨ t ∈ p.name :: N := by
              intro t ht
              obtain ⟨tg1, htg1, rfl⟩ := List.mem_map.mp ht
              obtain ⟨tg0, htg0, rfl⟩ := List.mem_map.mp htg1
              by_cases hc : tg0.1 = plc
              · exact Or.inr (by simp [hc])
              · have hc2 := hcover tg0.1 (List.mem_map_of_mem Prod.fst htg0)
                rcases hc2 with hh | hh
                · rcases List.mem_cons.mp hh with hh2 | hh2
                  · exact absurd hh2 hc
                  · exact Or.inl (by simpa [hc] using hh2)
                · exact Or.inr (by simp only [hc, if_neg hc]; exact List.mem_cons_of_mem _ hh)
            have hres := ih (other.erase p) g0
              (parts.map (fun tg => (if tg.1 = plc then p.name else tg.1, tg.2)))
              (p.name :: N) hgp' hpend' hoth' hcover' r1 r2 r3 r4 hrec x hx
            rcases hres with hh | hh | hh
            · exact Or.inl (by simp only [List.map_cons]; exact List.mem_cons_of_mem _ hh)
            · exact Or.inr (Or.inl hh)
            · rcases List.mem_cons.mp hh with hh2 | hh2
              · exact Or.inl (by simp [hh2])
              · exact Or.inr (Or.inr hh2)

/-- C1 (amended): over a well-formed url — brace-free gap text alternating
with `{token}` placeholders whose tokens are non-empty and free of braces
and newlines — and parameters whose names are likewise well formed, every
`{token}` in the url returned by `extract_path_parameters` either names a
parameter of the returned path group exactly or is a placeholder reported
as unmatched; an unmatched placeholder is left in the url, so the claim as
stated fails there. -/
theorem C1_token_resolution (g0 : List Char) (parts : List (List Char × List Char))
    (params pp op : List Param) (u' : List Char) (ds : List (List Char))
    (hgp : goodUrlParts g0 parts)
    (hnames : ∀ p ∈ params, goodTok p.name)
    (h : extract_path_parameters params (assembleUrl g0 parts) = .ok (pp, op, u', ds)) :
    ∀ x ∈ plcScan u', (∃ p ∈ pp, p.name = x) ∨ x ∈ ds := by
  intro x hx
  have hpend : ∀ t ∈ plcScan (assembleUrl g0 parts), goodTok t := by
    rw [plcScan_assemble parts g0 hgp]
    intro t ht
    obtain ⟨tg, htg, rfl⟩ := List.mem_map.mp ht
    exact (hgp.2 tg htg).1
  have hcover : ∀ t ∈ parts.map Prod.fst,
      t ∈ plcScan (assembleUrl g0 parts) ∨ t ∈ ([] : List (List Char)) := by
    intro t ht
    rw [plcScan_assemble parts g0 hgp]
    exact Or.inl ht
  have hres := eppLoop_tokens (plcScan (assembleUrl g0 parts)) params g0 parts []
    hgp hpend hnames hcover pp op u' ds h x hx
  rcases hres with hh | hh | hh
  · obtain ⟨p, hp, hpx⟩ := List.mem_map.mp hh
    exact Or.inl ⟨p, hp, hpx⟩
  · exact Or.inr hh
  · simp at hh

/-- C1 counterexample: with no parameters and url `/a/{x}`, the returned
url still contains the placeholder `{x}` (reported as unmatched), yet the
returned path group is empty, so no parameter's name equals the token. -/
theorem C1_counterexample :
    extract_path_parameters [] "/a/\x7bx\x7d".toList =
      .ok ([], [], "/a/\x7bx\x7d".toList, [['x']])
    ∧ ['x'] ∈ plcScan "/a/\x7bx\x7d".toList
    ∧ ¬ ∃ p ∈ ([] : List Param), p.name = ['x'] := by
  refine ⟨by decide, by decide, ?_⟩
  rintro ⟨p, hp, _⟩
  simp at hp

/-- C1 witness: the resolution property at the resource-pool scenario. -/
theorem C1_witness :
    (∃ p ∈ [rpParam], p.name = "resource_pool".toList) ∨
      "resource_pool".toList ∈ ([] : List (List Char)) :=
  C1_token_resolution "/vcenter/resource-pool/".toList
    [("resource-pool".toList, [])] [rpParam] [rpParam] []
    "/vcenter/resource-pool/\x7bresource_pool\x7d".toList []
    (by decide) (by decide) (by decide) "resource_pool".toList (by decide)
